import Mathlib

/-!
Verification development for the ADocS documentation-structure generator.

The Python sources are shallowly embedded as Lean definitions:

* `services/enhanced_documentation_service.py` — filename sanitizer
  (`_sanitize_filename`), priority-driven section merge (`_merge_sections`),
  default-priority assignment (`_assign_default_priorities`);
* `services/config_service.py` — configuration loading with defaults
  (`_load_config`, `_get_default_config`), accessors, and wildcard pattern
  matching (`_matches_pattern`);
* `src/generator.py` / `src/preprocess.py` — corpus-text construction
  (`_create_corpus_text`), the multi-model fallback loop inside `generate`,
  and cosine-similarity top-k retrieval (`_find_similar_repos`).

Strings are modelled as `String`/`List Char`, Python `None`-able ints as
`Option Int`, embedding vectors as `List ℚ`, and Python dicts as records.
Cosine-similarity values `d / √n` are represented exactly by the pair
`(d, n)` of rationals together with a comparison function that is
order-isomorphic to the real values, so every ranking computation stays
executable.
-/

namespace ADocS

/- Rational arithmetic must evaluate inside `decide` proofs about the
similarity retriever; the core operations are shipped `@[irreducible]`,
which only affects elaborator-side reduction, so they are restored to the
default reducibility for this file. -/
attribute [local semireducible] Rat.add Rat.mul Rat.sub

/-! ### Filename sanitizer

`EnhancedDocumentationService._sanitize_filename`:
`re.sub(r'[<>:"/\\|?*]', '_', filename)`, then `re.sub(r'_+', '_', ...)`,
then `.strip('_')`.  Note the character class contains no space character.
-/

/-- The characters of the regex class `[<>:"/\\|?*]`. -/
def isInvalidChar (c : Char) : Bool :=
  c = '<' || c = '>' || c = ':' || c = '"' || c = '/' || c = '\\' ||
  c = '|' || c = '?' || c = '*'

/-- `re.sub(r'[<>:"/\\|?*]', '_', s)`: each invalid character becomes `'_'`. -/
def replaceInvalid (l : List Char) : List Char :=
  l.map (fun c => if isInvalidChar c then '_' else c)

/-- `re.sub(r'_+', '_', s)`: every maximal run of underscores collapses to one. -/
def squeezeUnd : List Char → List Char
  | [] => []
  | [c] => [c]
  | a :: b :: t =>
    if a = '_' ∧ b = '_' then squeezeUnd (b :: t)
    else a :: squeezeUnd (b :: t)

/-- Test for the underscore character. -/
def isUnd (c : Char) : Bool := c = '_'

/-- `str.strip('_')`: drop leading and trailing underscores. -/
def stripUnd (l : List Char) : List Char :=
  ((l.dropWhile isUnd).reverse.dropWhile isUnd).reverse

/-- `EnhancedDocumentationService._sanitize_filename`. -/
def sanitize_filename (s : String) : String :=
  ⟨stripUnd (squeezeUnd (replaceInvalid s.toList))⟩

/-! ### Section records and the merge strategy

Sections flowing through `_merge_sections` / `_assign_default_priorities`
are dicts with (at least) a `title`, an optional integer `priority`, and an
`is_custom` marker.  Only these keys are inspected by the code under
verification, so the record carries exactly them.
-/

structure Section where
  title : String
  priority : Option Int
  is_custom : Bool
deriving DecidableEq, Repr

/-- The local `get_priority` helper of `_merge_sections` /
`_build_combined_navigation`: `section.get("priority")`, with `None`
replaced by `999`. -/
def get_priority (s : Section) : Int :=
  match s.priority with
  | none => 999
  | some p => p

/-- The sort key used on index-decorated sections: ascending priority,
ties broken by ascending original position — the semantics of Python's
stable `list.sort(key=get_priority)`. -/
def decoratedLE (p q : ℕ × Section) : Prop :=
  get_priority p.2 < get_priority q.2 ∨
    (get_priority p.2 = get_priority q.2 ∧ p.1 ≤ q.1)

instance : DecidableRel decoratedLE := fun p q => by
  unfold decoratedLE; infer_instance

/-- Python's stable ascending `list.sort(key=get_priority)`: decorate each
element with its position, sort by (key, position), strip the positions. -/
def stableSortByPriority (l : List Section) : List Section :=
  (List.insertionSort decoratedLE l.enum).map Prod.snd

/-- The index-decorated intermediate list of `stableSortByPriority`;
used to state stability. -/
def mergeDecorated (existing custom : List Section) : List (ℕ × Section) :=
  List.insertionSort decoratedLE (existing ++ custom).enum

/-- `EnhancedDocumentationService._merge_sections`:
`all_sections = existing_sections + custom_sections` followed by the stable
in-place `all_sections.sort(key=get_priority)`. -/
def merge_sections (existing custom : List Section) : List Section :=
  stableSortByPriority (existing ++ custom)

/-- The fixed `default_priorities` table of `_assign_default_priorities`
(lower-cased well-known titles). -/
def default_priorities (t : String) : Option Int :=
  if t = "apache ofbiz overview" then some 1
  else if t = "framework architecture" then some 3
  else if t = "plugin system and extensibility" then some 4
  else if t = "installation and setup" then some 5
  else if t = "development guide" then some 6
  else if t = "enterprise process automation" then some 7
  else if t = "community and contribution" then some 8
  else if t = "deployment and operations" then some 9
  else none

/-- Python's `str.lower()` on the ASCII titles involved: the
character-wise lower-casing of the string. -/
def lowerString (s : String) : String := ⟨s.toList.map Char.toLower⟩

/-- `EnhancedDocumentationService._assign_default_priorities` restricted to
the section list it rewrites: a section whose `priority` is `None` receives
the table value for its lower-cased title, else `10 + i` for its position
`i`; sections that already carry a priority are untouched. -/
def assign_default_priorities (sections : List Section) : List Section :=
  sections.enum.map (fun p =>
    match p.2.priority with
    | some _ => p.2
    | none =>
      match default_priorities (lowerString p.2.title) with
      | some pr => { p.2 with priority := some pr }
      | none => { p.2 with priority := some (10 + (p.1 : Int)) })

/-! ### Configuration service

`ConfigService._load_config` reads a YAML resource.  The three outcomes of
that read are: the file is missing (`Path.exists` false), the read/parse
raises (caught by the `except` clause), or it yields a configuration
value.  The parsed document is a record mirroring the keys the accessors
consult; each `dict.get(key, default)` becomes an `Option` field plus a
`getD`.
-/

/-- The global-configuration dict: every field optional, matching
`global_config.get(...)` access. -/
structure GlobalConfig where
  custom_docs_bucket : Option String
  fallback_to_generated : Option Bool
  cache_ttl : Option Int
  enable_custom_sections : Option Bool
  injection_strategy : Option String
deriving DecidableEq, Repr

/-- A parsed configuration document: `repositories` (pattern → raw repo
config, kept abstract as its presence is all the claims need),
`global_config`, `section_templates` (names only). -/
structure Config where
  repositories : List (String × List (String × String))
  global_config : GlobalConfig
  section_templates : List String
deriving DecidableEq, Repr

/-- Outcome of accessing the configuration resource. -/
inductive ConfigRead where
  | missing
  | unreadable
  | contents (c : Config)
deriving DecidableEq

/-- `ConfigService._get_default_config`. -/
def get_default_config : Config :=
  { repositories := []
    global_config :=
      { custom_docs_bucket := some "adocs-custom-docs"
        fallback_to_generated := some true
        cache_ttl := some 3600
        enable_custom_sections := some true
        injection_strategy := some "prepend" }
    section_templates := [] }

/-- `ConfigService._load_config` on a cold cache: a missing file and a read
or parse failure both fall back to `_get_default_config`; otherwise the
parsed document is returned. -/
def load_config : ConfigRead → Config
  | .missing => get_default_config
  | .unreadable => get_default_config
  | .contents c => c

/-- `InjectionStrategy` enum. -/
inductive InjectionStrategy where
  | prepend
  | append
  | replace
  | merge
deriving DecidableEq, Repr

/-- `InjectionStrategy(strategy)` construction: the enum member whose value
equals the string, else a `ValueError` (modelled as `none`). -/
def parseStrategy (s : String) : Option InjectionStrategy :=
  if s = "prepend" then some .prepend
  else if s = "append" then some .append
  else if s = "replace" then some .replace
  else if s = "merge" then some .merge
  else none

/-- `ConfigService.get_injection_strategy`:
`global_config.get('injection_strategy', 'prepend')`, coerced to the enum,
with the `ValueError` handler returning `PREPEND`. -/
def get_injection_strategy (c : Config) : InjectionStrategy :=
  match parseStrategy (c.global_config.injection_strategy.getD "prepend") with
  | some st => st
  | none => .prepend

/-- `ConfigService.is_custom_sections_enabled`. -/
def is_custom_sections_enabled (c : Config) : Bool :=
  c.global_config.enable_custom_sections.getD true

/-- `ConfigService.should_fallback_to_generated`. -/
def should_fallback_to_generated (c : Config) : Bool :=
  c.global_config.fallback_to_generated.getD true

/-! ### Wildcard pattern matching

`ConfigService._matches_pattern`: when the pattern contains `'*'` it is
turned into a regex by `pattern.replace('*', '.*')` and matched with
`re.match` (anchored at the start, not at the end); otherwise plain string
equality is used.  The regex fragment reachable from this construction is
modelled by three token kinds: a literal character, `.` (any one
character), and `.*` (any character sequence).  The model is faithful to
Python `re` for patterns built from non-metacharacters plus `'.'` and
`'*'`; other regex metacharacters (`+?[](){}|^$\`) are outside the model.
-/

inductive RTok where
  | lit (c : Char)
  | dot
  | dotStar
deriving DecidableEq

/-- `pattern.replace('*', '.*')`. -/
def replaceStar (l : List Char) : List Char :=
  (l.map (fun c => if c = '*' then ['.', '*'] else [c])).flatten

/-- Scan the replaced pattern into regex tokens: `.` directly followed by
`*` is the Kleene item `.*`, a lone `.` is the any-character item, and any
other character is literal.  In strings produced by `replaceStar` a `*`
only ever occurs right after a `.`, so this scan covers every reachable
input of `re.match` in `_matches_pattern`. -/
def scanRegex : List Char → List RTok
  | [] => []
  | c :: t =>
    if c = '.' then
      match t with
      | [] => [RTok.dot]
      | d :: t' =>
        if d = '*' then RTok.dotStar :: scanRegex t'
        else RTok.dot :: scanRegex (d :: t')
    else RTok.lit c :: scanRegex t

/-- `re.match` semantics for the token fragment: the match is anchored at
the start of the input and may end anywhere (an exhausted token list
accepts), and `.*` consumes an arbitrary prefix — equivalently, the rest
of the tokens must match some suffix of the input. -/
def rmatch : List RTok → List Char → Bool
  | [], _ => true
  | .lit c :: ts, xs =>
    match xs with
    | [] => false
    | x :: xs' => x = c && rmatch ts xs'
  | .dot :: ts, xs =>
    match xs with
    | [] => false
    | _ :: xs' => rmatch ts xs'
  | .dotStar :: ts, xs => xs.tails.any (fun ys => rmatch ts ys)

/-- `ConfigService._matches_pattern`. -/
def matches_pattern (repo_url pattern : String) : Bool :=
  if pattern.toList.contains '*' then
    rmatch (scanRegex (replaceStar pattern.toList)) repo_url.toList
  else repo_url == pattern

/-! Spec-side glob semantics for the pattern claim: every non-`'*'`
character of the pattern is literal, `'*'` expands to any character
sequence, and the URL matches when one of its prefixes matches the whole
expanded pattern. -/

inductive GTok where
  | lit (c : Char)
  | star
deriving DecidableEq

/-- The pattern read literally: `'*'` is the wildcard, everything else a
literal character. -/
def globToks (l : List Char) : List GTok :=
  l.map (fun c => if c = '*' then GTok.star else GTok.lit c)

/-- Token-wise correspondence between literal glob tokens and the regex
tokens `scanRegex` produces on a metacharacter-free pattern. -/
def convTok : GTok → RTok
  | .lit c => .lit c
  | .star => .dotStar

/-- Anchored (whole-word) glob matching: the pattern must consume the
entire input, a `*` consuming an arbitrary prefix. -/
def gmatchFull : List GTok → List Char → Bool
  | [], xs => xs.isEmpty
  | .lit c :: ts, xs =>
    match xs with
    | [] => false
    | x :: xs' => x = c && gmatchFull ts xs'
  | .star :: ts, xs => xs.tails.any (fun ys => gmatchFull ts ys)

/-- Claimed matching relation, following the spec's words: with a `'*'`
present, some prefix of the URL matches the literally-read pattern;
without one, exact equality. -/
def claimMatches (repo_url pattern : String) : Bool :=
  if pattern.toList.contains '*' then
    (List.range (repo_url.toList.length + 1)).any
      (fun k => gmatchFull (globToks pattern.toList) (repo_url.toList.take k))
  else repo_url == pattern

/-- Characters (other than `*`, which `_matches_pattern` rewrites away)
that Python `re` treats specially; the token model above is faithful to
`re.match` exactly for patterns avoiding them, except that `.` is also
modelled (as the any-character item). -/
def isRegexMeta (c : Char) : Bool :=
  c = '.' || c = '\\' || c = '+' || c = '?' || c = '[' || c = ']' ||
  c = '(' || c = ')' || c = '\x7b' || c = '\x7d' || c = '|' ||
  c = '^' || c = '$'

/-- Unanchored glob matching (used to bridge `rmatch` and `claimMatches`). -/
def gmatch : List GTok → List Char → Bool
  | [], _ => true
  | .lit c :: ts, xs =>
    match xs with
    | [] => false
    | x :: xs' => x = c && gmatch ts xs'
  | .star :: ts, xs => xs.tails.any (fun ys => gmatch ts ys)

/-! ### Corpus text builder

`DocStructureGenerator._create_corpus_text` (`src/generator.py`) and the
byte-identical `KnowledgeBaseBuilder.create_corpus_text`
(`src/preprocess.py`).  The metadata record carries exactly the fields the
function reads; `metadata.get(key, '')` defaults are baked into the field
types, and Python truthiness of strings/lists/dicts is emptiness.
-/

/-- Value of one `tech_stack` category: a list of names, or any other
value (captured through the `str(techs)` conversion the code applies). -/
inductive TechsVal where
  | vList (l : List String)
  | vOther (s : String)
deriving DecidableEq

/-- The `tech_stack` field: a list, a category-keyed dict (items in
insertion order), or any other value (captured through `str`). -/
inductive TechStack where
  | tsList (l : List String)
  | tsDict (l : List (String × TechsVal))
  | tsStr (s : String)
deriving DecidableEq

/-- The `architecture` field: a dict carrying a `description`, or any
non-dict value (whose contents the code never reads). -/
inductive ArchField where
  | notDict
  | dict (description : String)
deriving DecidableEq

/-- The metadata fields `_create_corpus_text` consults. -/
structure Metadata where
  overview : String
  business_domain : String
  architecture : ArchField
  tech_stack : TechStack
deriving DecidableEq

/-- Flattening of a category-keyed `tech_stack` dict: list values are
extended in, non-list values contribute their `str` form.  No
deduplication is performed. -/
def flattenTechs (l : List (String × TechsVal)) : List String :=
  (l.map (fun p =>
    match p.2 with
    | .vList ts => ts
    | .vOther s => [s])).flatten

/-- The `tech_string` computed for a truthy `tech_stack`. -/
def techString : TechStack → String
  | .tsDict l => String.intercalate ", " (flattenTechs l)
  | .tsList l => String.intercalate ", " l
  | .tsStr s => s

/-- Python truthiness of the `tech_stack` value (`if tech_stack:`). -/
def techTruthy : TechStack → Bool
  | .tsDict l => !l.isEmpty
  | .tsList l => !l.isEmpty
  | .tsStr s => s ≠ ""

/-- `_create_corpus_text`: the present parts in fixed order, joined by a
single space. -/
def create_corpus_text (m : Metadata) : String :=
  let parts : List String :=
    (if m.overview ≠ "" then ["Overview: " ++ m.overview] else []) ++
    (if m.business_domain ≠ ""
      then ["Business Domain: " ++ m.business_domain] else []) ++
    (match m.architecture with
      | .dict d => if d ≠ "" then ["Architecture: " ++ d] else []
      | .notDict => []) ++
    (if techTruthy m.tech_stack
      then ["Tech Stack: " ++ techString m.tech_stack] else [])
  String.intercalate " " parts

/-- Modelled from the spec: the corpus builder the claim describes, which
deduplicates the flattened technology list of a category-keyed map before
joining ("category-keyed maps are flattened to a deduplicated list before
joining"); all other parts as in the code. -/
def create_corpus_text_dedup (m : Metadata) : String :=
  let techStr : TechStack → String := fun ts =>
    match ts with
    | .tsDict l => String.intercalate ", " (flattenTechs l).dedup
    | .tsList l => String.intercalate ", " l
    | .tsStr s => s
  let parts : List String :=
    (if m.overview ≠ "" then ["Overview: " ++ m.overview] else []) ++
    (if m.business_domain ≠ ""
      then ["Business Domain: " ++ m.business_domain] else []) ++
    (match m.architecture with
      | .dict d => if d ≠ "" then ["Architecture: " ++ d] else []
      | .notDict => []) ++
    (if techTruthy m.tech_stack
      then ["Tech Stack: " ++ techStr m.tech_stack] else [])
  String.intercalate " " parts

/-! ### Generation invoker fallback loop

The model-candidate loop of `DocStructureGenerator.generate`
(`src/generator.py` lines 304–338): iterate `model_names`; a successful
`messages.create` breaks the loop, an exception is stored as `last_error`
and the next candidate is tried; if no candidate succeeded, raise
`ValueError(f"All Claude models failed. Last error: {last_error}")`.
`invoke` abstracts one `messages.create` call as `Except ε ρ`.  The first
component of the result records the candidates actually invoked, in
order; the final error carries `last_error` (`none` iff the candidate
list was empty).
-/

def run_candidates (invoke : μ → Except ε ρ) :
    List μ → Option ε → List μ × Except (Option ε) ρ
  | [], last => ([], .error last)
  | m :: rest, _ =>
    match invoke m with
    | .ok r => ([m], .ok r)
    | .error e =>
      let p := run_candidates invoke rest (some e)
      (m :: p.1, p.2)

/-- The fallback loop of `generate`, started with `response = None`,
`last_error = None`. -/
def generate_fallback (invoke : μ → Except ε ρ) (model_names : List μ) :
    List μ × Except (Option ε) ρ :=
  run_candidates invoke model_names none

/-! ### Similarity retriever

`DocStructureGenerator._find_similar_repos`: cosine similarities of the
query against every knowledge-base embedding, then
`np.argsort(similarities)[-k:][::-1]`, then each selected entry is
`.copy()`-ed and annotated with `similarity_score`.

The cosine similarity of rational vectors `q`, `a` is the real number
`dot q a / √(|q|² |a|²)` (and `0` when either vector is zero, as in
scikit-learn's `cosine_similarity`, which leaves zero rows at zero).  The
value is represented exactly by the pair `(dot q a, |q|²|a|²)`; `sLE`
compares two such pairs by sign analysis and cross-multiplied squares,
which is order-isomorphic to comparing the real values.  `np.argsort` is
modelled as the stable ascending argsort — positions ordered by (value,
position) — matching NumPy's behavior on the insertion-sorted small
arrays where ties matter.
-/

structure Entry where
  repo_url : String
  embedding : List ℚ
  similarity_score : Option (ℚ × ℚ)
deriving DecidableEq

instance : Inhabited Entry := ⟨⟨"", [], none⟩⟩

def dotL (a b : List ℚ) : ℚ := (List.zipWith (· * ·) a b).sum

def normSq (a : List ℚ) : ℚ := dotL a a

/-- Exact representation of `cosine_similarity([q],[a])[0][idx]`. -/
def mkScore (q a : List ℚ) : ℚ × ℚ := (dotL q a, normSq q * normSq a)

/-- Normalize a score pair: a non-positive denominator (only `0` can
arise, from a zero vector, in which case the numerator is `0` too) is the
value `0`. -/
def sNorm (p : ℚ × ℚ) : ℚ × ℚ := if p.2 ≤ 0 then (0, 1) else p

/-- Decide `value p ≤ value q` where `value (d, n) = d / √n`. -/
def sLE (p q : ℚ × ℚ) : Bool :=
  let a := sNorm p
  let b := sNorm q
  if 0 ≤ a.1 then
    (if 0 ≤ b.1 then decide (a.1 ^ 2 * b.2 ≤ b.1 ^ 2 * a.2) else false)
  else
    (if 0 ≤ b.1 then true else decide (b.1 ^ 2 * a.2 ≤ a.1 ^ 2 * b.2))

/-- Similarity score of the query against knowledge-base position `i`. -/
def scoreAt (sims : List (ℚ × ℚ)) (i : ℕ) : ℚ × ℚ := sims.getD i (0, 1)

/-- Ascending order on knowledge-base positions used by the stable
argsort: by similarity value, ties by position. -/
def idxLE (sims : List (ℚ × ℚ)) (i j : ℕ) : Prop :=
  sLE (scoreAt sims i) (scoreAt sims j) = true ∧
    (sLE (scoreAt sims j) (scoreAt sims i) = true → i ≤ j)

instance (sims : List (ℚ × ℚ)) : DecidableRel (idxLE sims) := fun i j => by
  unfold idxLE; infer_instance

/-- `similarities = cosine_similarity([new_repo_embedding], kb_embeddings)[0]`. -/
def sim_scores (q : List ℚ) (kb : List Entry) : List (ℚ × ℚ) :=
  kb.map (fun e => mkScore q e.embedding)

/-- `np.argsort(similarities)` (stable, ascending). -/
def argsortSim (q : List ℚ) (kb : List Entry) : List ℕ :=
  List.insertionSort (idxLE (sim_scores q kb)) (List.range kb.length)

/-- Python slice `l[-k:]`: for `k = 0` the whole list (`l[-0:]` is
`l[0:]`), otherwise the last `min k (length l)` elements. -/
def lastSlice (l : List α) (k : ℕ) : List α :=
  if k = 0 then l else l.drop (l.length - k)

/-- `top_indices = np.argsort(similarities)[-k:][::-1]`. -/
def top_indices (q : List ℚ) (kb : List Entry) (k : ℕ) : List ℕ :=
  (lastSlice (argsortSim q kb) k).reverse

/-- `entry = self.knowledge_base[idx].copy();
entry['similarity_score'] = float(similarities[idx])`. -/
def annotate (q : List ℚ) (kb : List Entry) (i : ℕ) : Entry :=
  let e := kb.getD i default
  { e with similarity_score := some (mkScore q e.embedding) }

/-- `_find_similar_repos`: the annotated copies of the selected entries. -/
def find_similar_repos (q : List ℚ) (kb : List Entry) (k : ℕ) : List Entry :=
  (top_indices q kb k).map (annotate q kb)

/-- The call as a transformer of the stored knowledge base (the only
mutable state the method touches): it reads `self.knowledge_base`, never
writes it, and returns the annotated copies. -/
def find_similar_repos_call (q : List ℚ) (kb : List Entry) (k : ℕ) :
    List Entry × List Entry :=
  (kb, find_similar_repos q kb k)

/-- Candidate invoker used by the witness of the fallback claim: model `1`
answers, the others raise. -/
def invokeW : ℕ → Except String String :=
  fun n => if n = 1 then .ok "resp" else .error ("fail" ++ toString n)

/-- Knowledge base with two entries carrying identical embeddings, used to
exhibit the tie-breaking order of the retriever. -/
def kbTie : List Entry :=
  [⟨"A", [1, 0], none⟩, ⟨"B", [1, 0], none⟩]

/-- Knowledge base with three distinct embeddings, used by the retriever
witnesses. -/
def kbW : List Entry :=
  [⟨"A", [1, 0], none⟩, ⟨"B", [0, 1], none⟩, ⟨"C", [1, 1], none⟩]

/-- Metadata record with one technology listed under two categories, used
to exercise the (absent) deduplication of the corpus builder. -/
def mDup : Metadata :=
  { overview := "ov"
    business_domain := "bd"
    architecture := .dict "ar"
    tech_stack := .tsDict [("backend", .vList ["Python"]), ("tools", .vList ["Python"])] }

/-! ## Theorems -/

/-! ### C6: configuration defaults -/

/-- C6: when the configuration resource is missing or unreadable,
`_load_config` does not fail but returns the documented default
configuration: an empty repositories map, custom sections enabled, the
`prepend` injection strategy, and fallback to generated sections
enabled. -/
theorem c6_load_config_defaults :
    load_config .missing = get_default_config ∧
    load_config .unreadable = get_default_config ∧
    (load_config .missing).repositories = [] ∧
    is_custom_sections_enabled (load_config .missing) = true ∧
    get_injection_strategy (load_config .missing) = .prepend ∧
    should_fallback_to_generated (load_config .missing) = true ∧
    (load_config .unreadable).repositories = [] ∧
    is_custom_sections_enabled (load_config .unreadable) = true ∧
    get_injection_strategy (load_config .unreadable) = .prepend ∧
    should_fallback_to_generated (load_config .unreadable) = true := by
  refine ⟨rfl, rfl, rfl, rfl, ?_, rfl, rfl, rfl, ?_, rfl⟩ <;> decide

/-! ### C3: candidate fallback loop -/

theorem run_candidates_cons (invoke : μ → Except ε ρ) (m : μ) (l : List μ)
    (last : Option ε) :
    run_candidates invoke (m :: l) last =
      match invoke m with
      | .ok r => ([m], .ok r)
      | .error e =>
        (m :: (run_candidates invoke l (some e)).1,
          (run_candidates invoke l (some e)).2) := rfl

theorem run_candidates_success (invoke : μ → Except ε ρ) (s : μ) (r : ρ)
    (post : List μ) (hs : invoke s = .ok r) :
    ∀ (pre : List μ), (∀ m ∈ pre, ∃ e, invoke m = .error e) →
      ∀ last, run_candidates invoke (pre ++ s :: post) last = (pre ++ [s], .ok r) := by
  intro pre
  induction pre with
  | nil =>
    intro _ last
    simp only [List.nil_append, run_candidates_cons, hs]
  | cons m pre ih =>
    intro hfail last
    obtain ⟨e, he⟩ := hfail m (List.mem_cons_self m pre)
    have hrest := ih (fun m' hm' => hfail m' (List.mem_cons_of_mem m hm')) (some e)
    simp only [List.cons_append, run_candidates_cons, he, hrest]

theorem run_candidates_all_fail (invoke : μ → Except ε ρ) :
    ∀ (models : List μ), models ≠ [] →
      (∀ m ∈ models, ∃ e, invoke m = .error e) →
      ∀ last, ∃ mlast elast, models.getLast? = some mlast ∧
        invoke mlast = .error elast ∧
        run_candidates invoke models last = (models, .error (some elast)) := by
  intro models
  induction models with
  | nil => intro h; exact absurd rfl h
  | cons m rest ih =>
    intro _ hfail last
    obtain ⟨e, he⟩ := hfail m (List.mem_cons_self m rest)
    cases rest with
    | nil =>
      refine ⟨m, e, rfl, he, ?_⟩
      simp only [run_candidates_cons, he]
      rfl
    | cons m' rest' =>
      obtain ⟨mlast, elast, hml, hl, hrun⟩ :=
        ih (by simp) (fun x hx => hfail x (List.mem_cons_of_mem m hx)) (some e)
      refine ⟨mlast, elast, ?_, hl, ?_⟩
      · simpa using hml
      · simp only [run_candidates_cons, he, hrun]

theorem run_candidates_error_all_fail (invoke : μ → Except ε ρ) :
    ∀ (models : List μ) (last : Option ε) (o : Option ε),
      (run_candidates invoke models last).2 = .error o →
      ∀ m ∈ models, ∃ e, invoke m = .error e := by
  intro models
  induction models with
  | nil => intro _ _ _ m hm; cases hm
  | cons m rest ih =>
    intro last o herr m' hm'
    cases hok : invoke m with
    | ok r =>
      simp only [run_candidates_cons, hok] at herr
      exact absurd herr (by simp)
    | error e =>
      simp only [run_candidates_cons, hok] at herr
      rcases List.mem_cons.1 hm' with rfl | hmem
      · exact ⟨e, hok⟩
      · exact ih (some e) o herr m' hmem

/-- C3: the generation fallback tries the candidate models strictly in
list order and stops at the first success (candidates after it are never
invoked); it fails only when every candidate has failed, and the final
error then carries the last candidate's failure. -/
theorem c3_generate_fallback (invoke : μ → Except ε ρ) :
    (∀ (pre post : List μ) (s : μ) (r : ρ),
       invoke s = .ok r →
       (∀ m ∈ pre, ∃ e, invoke m = .error e) →
       generate_fallback invoke (pre ++ s :: post) = (pre ++ [s], .ok r)) ∧
    (∀ (models : List μ), models ≠ [] →
       (∀ m ∈ models, ∃ e, invoke m = .error e) →
       ∃ mlast elast, models.getLast? = some mlast ∧
         invoke mlast = .error elast ∧
         generate_fallback invoke models = (models, .error (some elast))) ∧
    (∀ (models : List μ) (o : Option ε),
       (generate_fallback invoke models).2 = .error o →
       ∀ m ∈ models, ∃ e, invoke m = .error e) := by
  refine ⟨?_, ?_, ?_⟩
  · intro pre post s r hs hfail
    exact run_candidates_success invoke s r post hs pre hfail none
  · intro models h hfail
    exact run_candidates_all_fail invoke models h hfail none
  · intro models o herr
    exact run_candidates_error_all_fail invoke models none o herr

/-- Witness for C3: with candidates `[0, 1, 2]`, where `0` fails and `1`
succeeds, only `[0, 1]` are invoked and candidate `2` is never tried. -/
theorem c3_generate_fallback_witness :
    generate_fallback invokeW [0, 1, 2] = ([0, 1], .ok "resp") := by
  have h := (c3_generate_fallback invokeW).1 [0] [2] 1 "resp" rfl
    (by intro m hm
        rw [List.mem_singleton] at hm
        subst hm
        exact ⟨"fail0", rfl⟩)
  simpa using h

/-! ### C5: corpus text construction -/

theorem intercalate_four (s a b c d : String) :
    String.intercalate s [a, b, c, d] = a ++ s ++ b ++ s ++ c ++ s ++ d := rfl

/-- C5 counterexample: a technology listed under two categories is joined
twice into the corpus — the builder does not deduplicate the flattened
technology list, contrary to the claim (`create_corpus_text_dedup` is the
claimed behavior). -/
theorem c5_counterexample :
    create_corpus_text mDup =
      "Overview: ov Business Domain: bd Architecture: ar Tech Stack: Python, Python" ∧
    create_corpus_text_dedup mDup =
      "Overview: ov Business Domain: bd Architecture: ar Tech Stack: Python" ∧
    create_corpus_text mDup ≠ create_corpus_text_dedup mDup := by
  refine ⟨?_, ?_, ?_⟩ <;> decide

/-- C5 amended: for a metadata record with all four fields present and a
category-keyed `tech_stack`, the corpus is the fixed-order concatenation
overview, business domain, architecture description, technology list,
where the technology list is the flattened mapping joined as-is — in
category order and without deduplication. -/
theorem c5_corpus_text (ov bd ar : String) (ts : List (String × TechsVal))
    (hov : ov ≠ "") (hbd : bd ≠ "") (har : ar ≠ "") (hts : ts ≠ []) :
    create_corpus_text ⟨ov, bd, .dict ar, .tsDict ts⟩ =
      "Overview: " ++ ov ++ " Business Domain: " ++ bd ++ " Architecture: " ++
      ar ++ " Tech Stack: " ++ String.intercalate ", " (flattenTechs ts) := by
  have hts' : (ts.isEmpty : Bool) = false := by
    cases ts with
    | nil => exact absurd rfl hts
    | cons a l => rfl
  simp only [create_corpus_text, techTruthy, techString, hts', if_pos hov,
    if_pos hbd, if_pos har, Bool.not_false, if_pos rfl, if_true,
    List.cons_append, List.nil_append]
  rw [intercalate_four]
  simp only [String.append_assoc]
  rw [show ∀ x : String, " " ++ ("Business Domain: " ++ x) =
        " Business Domain: " ++ x from fun x => by
          rw [← String.append_assoc]; exact congrArg (· ++ x) (by decide),
      show ∀ x : String, " " ++ ("Architecture: " ++ x) =
        " Architecture: " ++ x from fun x => by
          rw [← String.append_assoc]; exact congrArg (· ++ x) (by decide),
      show ∀ x : String, " " ++ ("Tech Stack: " ++ x) =
        " Tech Stack: " ++ x from fun x => by
          rw [← String.append_assoc]; exact congrArg (· ++ x) (by decide)]

/-- Witness for C5 (amended): the theorem applied to a concrete record
with a duplicated technology, whose corpus keeps the duplicate. -/
theorem c5_corpus_text_witness :
    create_corpus_text ⟨"o", "b", .dict "a", .tsDict [("c", .vList ["X", "X"])]⟩ =
      "Overview: o Business Domain: b Architecture: a Tech Stack: X, X" := by
  rw [c5_corpus_text "o" "b" "a" [("c", .vList ["X", "X"])]
    (by decide) (by decide) (by decide) (by decide)]
  decide

/-! ### C4, C10: filename sanitizer -/

theorem replaceInvalid_no_invalid (l : List Char) :
    ∀ c ∈ replaceInvalid l, isInvalidChar c = false := by
  intro c hc
  obtain ⟨a, _, ha⟩ := List.mem_map.1 hc
  by_cases h : isInvalidChar a = true
  · rw [← ha]; simp only [h, if_pos rfl]; rfl
  · rw [← ha]; simp only [if_neg h]
    exact Bool.not_eq_true _ ▸ h

theorem replaceInvalid_id (l : List Char)
    (h : ∀ c ∈ l, isInvalidChar c = false) : replaceInvalid l = l := by
  unfold replaceInvalid
  have hcongr : ∀ c ∈ l, (if isInvalidChar c = true then '_' else c) = id c := by
    intro c hc
    rw [h c hc]
    simp
  rw [List.map_congr_left hcongr, List.map_id]

theorem replaceInvalid_mem (l : List Char) :
    ∀ c ∈ replaceInvalid l, c = '_' ∨ c ∈ l := by
  intro c hc
  obtain ⟨a, ha, hac⟩ := List.mem_map.1 hc
  by_cases h : isInvalidChar a = true
  · left; rw [← hac]; simp [h]
  · right; rw [← hac]; simp only [Bool.not_eq_true] at h; simp [h]; exact ha

theorem squeezeUnd_sublist : ∀ l : List Char, (squeezeUnd l).Sublist l
  | [] => by simp [squeezeUnd]
  | [c] => by simp [squeezeUnd]
  | a :: b :: t => by
    by_cases h : a = '_' ∧ b = '_'
    · simp only [squeezeUnd, if_pos h]
      exact (squeezeUnd_sublist (b :: t)).cons a
    · simp only [squeezeUnd, if_neg h]
      exact (squeezeUnd_sublist (b :: t)).cons₂ a

theorem squeezeUnd_cons : ∀ (t : List Char) (b : Char),
    ∃ u, squeezeUnd (b :: t) = b :: u
  | [], _ => ⟨[], rfl⟩
  | c :: t', b => by
    by_cases h : b = '_' ∧ c = '_'
    · obtain ⟨hb, hc⟩ := h
      subst hb; subst hc
      obtain ⟨u, hu⟩ := squeezeUnd_cons t' '_'
      refine ⟨u, ?_⟩
      rw [show squeezeUnd ('_' :: '_' :: t') = squeezeUnd ('_' :: t') from by
        simp [squeezeUnd]]
      exact hu
    · exact ⟨squeezeUnd (c :: t'), by simp only [squeezeUnd, if_neg h]⟩

theorem squeezeUnd_chain :
    ∀ l : List Char, (squeezeUnd l).Chain' (fun a b => ¬(a = '_' ∧ b = '_'))
  | [] => by simp [squeezeUnd]
  | [c] => by simp [squeezeUnd]
  | a :: b :: t => by
    by_cases h : a = '_' ∧ b = '_'
    · simpa only [squeezeUnd, if_pos h] using squeezeUnd_chain (b :: t)
    · obtain ⟨u, hu⟩ := squeezeUnd_cons t b
      have hc := squeezeUnd_chain (b :: t)
      rw [hu] at hc
      simp only [squeezeUnd, if_neg h, hu]
      rw [List.chain'_cons]
      exact ⟨h, hc⟩

theorem squeezeUnd_id :
    ∀ l : List Char, l.Chain' (fun a b => ¬(a = '_' ∧ b = '_')) →
      squeezeUnd l = l
  | [], _ => rfl
  | [_], _ => rfl
  | a :: b :: t, h => by
    rw [List.chain'_cons] at h
    simp only [squeezeUnd, if_neg h.1]
    rw [squeezeUnd_id (b :: t) h.2]

theorem dropWhile_head_false (p : Char → Bool) :
    ∀ (l : List Char) (c : Char), (l.dropWhile p).head? = some c → p c = false
  | [], c => by simp [List.dropWhile]
  | a :: t, c => by
    rw [List.dropWhile_cons]
    by_cases h : p a = true
    · rw [if_pos h]
      exact dropWhile_head_false p t c
    · rw [if_neg h]
      intro hc
      rw [List.head?_cons, Option.some_inj] at hc
      rw [← hc]
      simpa using h

theorem dropWhile_id (p : Char → Bool) (l : List Char)
    (h : ∀ c, l.head? = some c → p c = false) : l.dropWhile p = l := by
  cases l with
  | nil => rfl
  | cons a t =>
    rw [List.dropWhile_cons, if_neg]
    rw [h a rfl]
    simp

theorem suffix_getLast? {s m : List Char} (hs : s <:+ m) (hne : s ≠ []) :
    s.getLast? = m.getLast? := by
  obtain ⟨pre, hpre⟩ := hs
  rw [← hpre, List.getLast?_append]
  cases h : s.getLast? with
  | none => exact absurd (List.getLast?_eq_none_iff.1 h) hne
  | some x => rfl

theorem isUnd_false {c : Char} (h : c ≠ '_') : isUnd c = false := by
  unfold isUnd
  simpa using h

theorem isUnd_ne {c : Char} (h : isUnd c = false) : c ≠ '_' := by
  unfold isUnd at h
  simpa using h

theorem stripUnd_sublist (l : List Char) : (stripUnd l).Sublist l := by
  unfold stripUnd
  have h1 : (l.dropWhile isUnd).Sublist l := List.dropWhile_sublist _
  have h2 := List.dropWhile_sublist (l := (l.dropWhile isUnd).reverse) isUnd
  have h3 := h2.reverse
  rw [List.reverse_reverse] at h3
  exact h3.trans h1

theorem stripUnd_chain {l : List Char}
    (h : l.Chain' (fun a b => ¬(a = '_' ∧ b = '_'))) :
    (stripUnd l).Chain' (fun a b => ¬(a = '_' ∧ b = '_')) := by
  unfold stripUnd
  have h1 := h.suffix (List.dropWhile_suffix isUnd)
  have h2 : ((l.dropWhile isUnd).reverse).Chain'
      (fun a b => ¬(a = '_' ∧ b = '_')) := by
    rw [List.chain'_reverse]
    exact h1.imp (fun a b hab h' => hab ⟨h'.2, h'.1⟩)
  have h3 := h2.suffix (List.dropWhile_suffix isUnd)
  rw [List.chain'_reverse]
  exact h3.imp (fun a b hab h' => hab ⟨h'.2, h'.1⟩)

theorem stripUnd_head (l : List Char) :
    ∀ c, (stripUnd l).head? = some c → c ≠ '_' := by
  intro c hc
  unfold stripUnd at hc
  rw [List.head?_reverse] at hc
  by_cases hnil : ((l.dropWhile isUnd).reverse.dropWhile isUnd) = []
  · rw [hnil] at hc; cases hc
  · rw [suffix_getLast? (List.dropWhile_suffix isUnd) hnil,
      List.getLast?_reverse] at hc
    exact isUnd_ne (dropWhile_head_false isUnd l c hc)

theorem stripUnd_last (l : List Char) :
    ∀ c, (stripUnd l).getLast? = some c → c ≠ '_' := by
  intro c hc
  unfold stripUnd at hc
  rw [List.getLast?_reverse] at hc
  exact isUnd_ne (dropWhile_head_false isUnd _ c hc)

theorem stripUnd_id (l : List Char)
    (h1 : ∀ c, l.head? = some c → c ≠ '_')
    (h2 : ∀ c, l.getLast? = some c → c ≠ '_') : stripUnd l = l := by
  unfold stripUnd
  have e1 : l.dropWhile isUnd = l := by
    apply dropWhile_id
    intro c hc
    exact isUnd_false (h1 c hc)
  rw [e1]
  have e2 : l.reverse.dropWhile isUnd = l.reverse := by
    apply dropWhile_id
    intro c hc
    rw [List.head?_reverse] at hc
    exact isUnd_false (h2 c hc)
  rw [e2, List.reverse_reverse]

theorem sanitize_toList (s : String) :
    (sanitize_filename s).toList =
      stripUnd (squeezeUnd (replaceInvalid s.toList)) := rfl

/-- C4 counterexample: the sanitizer of
`EnhancedDocumentationService._sanitize_filename` does not replace
spaces, so `"API / Reference: Guide"` sanitizes to
`"API _ Reference_ Guide"`, not to the claimed `"API_Reference_Guide"`. -/
theorem c4_sanitize_counterexample :
    sanitize_filename "API / Reference: Guide" = "API _ Reference_ Guide" ∧
    sanitize_filename "API / Reference: Guide" ≠ "API_Reference_Guide" := by
  constructor <;> decide

/-- C4 amended: the sanitizer replaces every occurrence of the characters
`<>:"/\|?*` (but not spaces) with underscore, collapses runs of
underscores (the result never contains two adjacent underscores, and every
character is either an underscore or comes from the input), and trims
leading and trailing underscores; sanitizing `"API / Reference: Guide"`
yields `"API _ Reference_ Guide"`. -/
theorem c4_sanitize_behavior (s : String) :
    (∀ c ∈ (sanitize_filename s).toList, isInvalidChar c = false) ∧
    (∀ c ∈ (sanitize_filename s).toList, c = '_' ∨ c ∈ s.toList) ∧
    (sanitize_filename s).toList.Chain' (fun a b => ¬(a = '_' ∧ b = '_')) ∧
    (∀ c, (sanitize_filename s).toList.head? = some c → c ≠ '_') ∧
    (∀ c, (sanitize_filename s).toList.getLast? = some c → c ≠ '_') ∧
    sanitize_filename "API / Reference: Guide" = "API _ Reference_ Guide" := by
  rw [sanitize_toList]
  refine ⟨?_, ?_, stripUnd_chain (squeezeUnd_chain _),
    stripUnd_head _, stripUnd_last _, by decide⟩
  · intro c hc
    have hc1 := (stripUnd_sublist _).mem hc
    have hc2 := (squeezeUnd_sublist _).mem hc1
    exact replaceInvalid_no_invalid _ c hc2
  · intro c hc
    have hc1 := (stripUnd_sublist _).mem hc
    have hc2 := (squeezeUnd_sublist _).mem hc1
    exact replaceInvalid_mem _ c hc2

/-- Witness for C4 (amended): the theorem applied at the claim's own
scenario input. -/
theorem c4_sanitize_behavior_witness :
    sanitize_filename "API / Reference: Guide" = "API _ Reference_ Guide" :=
  (c4_sanitize_behavior "API / Reference: Guide").2.2.2.2.2

/-- C10: the sanitizer is idempotent — its output contains no character of
the replaced class, no run of underscores, and no leading or trailing
underscore, so a second application of each phase is the identity. -/
theorem c10_sanitize_idempotent (s : String) :
    sanitize_filename (sanitize_filename s) = sanitize_filename s := by
  have hout := c4_sanitize_behavior s
  obtain ⟨hinv, _, hchain, hhead, hlast, _⟩ := hout
  have hlist : (sanitize_filename s).toList =
      stripUnd (squeezeUnd (replaceInvalid s.toList)) := rfl
  show (⟨stripUnd (squeezeUnd (replaceInvalid
      (sanitize_filename s).toList))⟩ : String) = sanitize_filename s
  rw [replaceInvalid_id _ hinv, squeezeUnd_id _ hchain,
    stripUnd_id _ hhead hlast]
  cases hs : sanitize_filename s
  rfl

/-! ### C2, C7: the merge injection strategy -/

instance : IsTotal (ℕ × Section) decoratedLE := ⟨by
  intro p q
  unfold decoratedLE
  rcases lt_trichotomy (get_priority p.2) (get_priority q.2) with h | h | h
  · exact Or.inl (Or.inl h)
  · rcases Nat.le_total p.1 q.1 with hn | hn
    · exact Or.inl (Or.inr ⟨h, hn⟩)
    · exact Or.inr (Or.inr ⟨h.symm, hn⟩)
  · exact Or.inr (Or.inl h)⟩

instance : IsTrans (ℕ × Section) decoratedLE := ⟨by
  intro p q r hpq hqr
  unfold decoratedLE at hpq hqr ⊢
  rcases hpq with h1 | ⟨e1, n1⟩
  · rcases hqr with h2 | ⟨e2, n2⟩
    · exact Or.inl (h1.trans h2)
    · exact Or.inl (e2 ▸ h1)
  · rcases hqr with h2 | ⟨e2, n2⟩
    · exact Or.inl (by rw [e1]; exact h2)
    · exact Or.inr ⟨e1.trans e2, n1.trans n2⟩⟩

theorem mergeDecorated_perm (existing custom : List Section) :
    (mergeDecorated existing custom).Perm (existing ++ custom).enum :=
  List.perm_insertionSort _ _

theorem mergeDecorated_sorted (existing custom : List Section) :
    (mergeDecorated existing custom).Pairwise decoratedLE :=
  List.sorted_insertionSort decoratedLE _

theorem mergeDecorated_fst_ne (existing custom : List Section) :
    (mergeDecorated existing custom).Pairwise (fun p q => p.1 ≠ q.1) := by
  have hperm := (mergeDecorated_perm existing custom).map Prod.fst
  rw [List.enum_map_fst] at hperm
  have hnodup : ((mergeDecorated existing custom).map Prod.fst).Nodup :=
    hperm.nodup_iff.2 (List.nodup_range _)
  exact List.pairwise_map.1 hnodup

theorem mergeDecorated_strict (existing custom : List Section) :
    (mergeDecorated existing custom).Pairwise
      (fun p q => get_priority p.2 < get_priority q.2 ∨
        (get_priority p.2 = get_priority q.2 ∧ p.1 < q.1)) := by
  have h := (mergeDecorated_sorted existing custom).and
    (mergeDecorated_fst_ne existing custom)
  refine h.imp ?_
  rintro p q ⟨hle, hne⟩
  rcases hle with h1 | ⟨h1, h2⟩
  · exact Or.inl h1
  · exact Or.inr ⟨h1, lt_of_le_of_ne h2 hne⟩

/-- C2: under the `merge` strategy the output is the concatenation of
generated and custom sections sorted stably by ascending priority: it is a
permutation of the concatenation, priorities are nondecreasing along it, a
missing priority counts as `999`, and on the position-decorated list the
order is strictly increasing in (priority, original position) — equal
priorities keep their relative order from the concatenated input. -/
theorem c2_merge_sections_stable (existing custom : List Section) :
    merge_sections existing custom =
      (mergeDecorated existing custom).map Prod.snd ∧
    (merge_sections existing custom).Perm (existing ++ custom) ∧
    (merge_sections existing custom).Pairwise
      (fun a b => get_priority a ≤ get_priority b) ∧
    (mergeDecorated existing custom).Perm (existing ++ custom).enum ∧
    (mergeDecorated existing custom).Pairwise
      (fun p q => get_priority p.2 < get_priority q.2 ∨
        (get_priority p.2 = get_priority q.2 ∧ p.1 < q.1)) ∧
    (∀ t b, get_priority ⟨t, none, b⟩ = 999) := by
  refine ⟨rfl, ?_, ?_, mergeDecorated_perm existing custom,
    mergeDecorated_strict existing custom, fun t b => rfl⟩
  · have hperm := (mergeDecorated_perm existing custom).map Prod.snd
    rw [List.enum_map_snd] at hperm
    exact hperm
  · have hs := mergeDecorated_sorted existing custom
    have : (mergeDecorated existing custom).Pairwise
        (fun p q : ℕ × Section => get_priority p.2 ≤ get_priority q.2) := by
      refine hs.imp ?_
      rintro p q (h1 | ⟨h1, _⟩)
      · exact le_of_lt h1
      · exact le_of_eq h1
    exact List.pairwise_map.2 this

/-- Witness for C2: a concrete merge evaluated, together with the theorem
applied to the same input. -/
theorem c2_merge_sections_stable_witness :
    merge_sections
        [⟨"X", some 2, false⟩, ⟨"Y", none, false⟩, ⟨"Z", some 2, false⟩]
        [⟨"W", some 1, true⟩, ⟨"V", some 2, true⟩] =
      [⟨"W", some 1, true⟩, ⟨"X", some 2, false⟩, ⟨"Z", some 2, false⟩,
        ⟨"V", some 2, true⟩, ⟨"Y", none, false⟩] ∧
    (merge_sections
        [⟨"X", some 2, false⟩, ⟨"Y", none, false⟩, ⟨"Z", some 2, false⟩]
        [⟨"W", some 1, true⟩, ⟨"V", some 2, true⟩]).Pairwise
      (fun a b => get_priority a ≤ get_priority b) :=
  ⟨by decide,
    (c2_merge_sections_stable
      [⟨"X", some 2, false⟩, ⟨"Y", none, false⟩, ⟨"Z", some 2, false⟩]
      [⟨"W", some 1, true⟩, ⟨"V", some 2, true⟩]).2.2.1⟩

theorem stableSort_of_sorted (l : List Section)
    (h : l.Pairwise (fun a b => get_priority a ≤ get_priority b)) :
    stableSortByPriority l = l := by
  have hfst : l.enum.Pairwise (fun p q : ℕ × Section => p.1 < q.1) := by
    have hr := List.pairwise_lt_range l.length
    rw [← List.enum_map_fst l] at hr
    exact List.pairwise_map.1 hr
  have hsnd : l.enum.Pairwise
      (fun p q : ℕ × Section => get_priority p.2 ≤ get_priority q.2) := by
    have h' := h
    rw [← List.enum_map_snd l] at h'
    exact (List.pairwise_map (f := Prod.snd)).1 h'
  have hsorted : l.enum.Pairwise decoratedLE := by
    refine (hsnd.and hfst).imp ?_
    rintro p q ⟨hle, hlt⟩
    unfold decoratedLE
    rcases lt_or_eq_of_le hle with h1 | h1
    · exact Or.inl h1
    · exact Or.inr ⟨h1, le_of_lt hlt⟩
  unfold stableSortByPriority
  rw [List.Sorted.insertionSort_eq hsorted, List.enum_map_snd]

/-- C7 counterexample: a generated structure whose default-priority
assignment produces priorities out of positional order (the well-known
title "Apache OFBiz Overview" gets priority 1 behind an unknown title
that gets 10), so merging with an empty custom list reorders it. -/
theorem c7_counterexample :
    merge_sections
        (assign_default_priorities
          [⟨"Other", none, false⟩, ⟨"Apache OFBiz Overview", none, false⟩])
        [] ≠
      assign_default_priorities
        [⟨"Other", none, false⟩, ⟨"Apache OFBiz Overview", none, false⟩] := by
  decide

/-- C7 amended: merging a generated structure with an empty custom-section
list under the `merge` strategy yields the generated sections unchanged in
order exactly when their (post-assignment) priorities are already
nondecreasing — for example when every section received the positional
default `10 + index`; in general the output is the stable ascending
priority sort of the generated sections. -/
theorem c7_merge_empty_custom (base : List Section)
    (h : (assign_default_priorities base).Pairwise
      (fun a b => get_priority a ≤ get_priority b)) :
    merge_sections (assign_default_priorities base) [] =
      assign_default_priorities base := by
  unfold merge_sections
  rw [List.append_nil]
  exact stableSort_of_sorted _ h

/-- Witness for C7 (amended): two unknown titles receive the positional
defaults 10 and 11, and the merge leaves them in place. -/
theorem c7_merge_empty_custom_witness :
    merge_sections
        (assign_default_priorities
          [⟨"Introduction", none, false⟩, ⟨"Usage", none, false⟩]) [] =
      assign_default_priorities
        [⟨"Introduction", none, false⟩, ⟨"Usage", none, false⟩] :=
  c7_merge_empty_custom
    [⟨"Introduction", none, false⟩, ⟨"Usage", none, false⟩] (by decide)

/-! ### C9: wildcard pattern matching -/

theorem replaceStar_cons (c : Char) (t : List Char) :
    replaceStar (c :: t) =
      (if c = '*' then ['.', '*'] else [c]) ++ replaceStar t := by
  simp [replaceStar]

theorem scanRegex_dotstar (t : List Char) :
    scanRegex ('.' :: '*' :: t) = .dotStar :: scanRegex t := by
  simp [scanRegex]

theorem scanRegex_lit {c : Char} (h : c ≠ '.') (t : List Char) :
    scanRegex (c :: t) = .lit c :: scanRegex t := by
  cases t with
  | nil => simp [scanRegex, h]
  | cons d t' => simp [scanRegex, h]

theorem scan_replace (l : List Char)
    (h : ∀ c ∈ l, isRegexMeta c = false) :
    scanRegex (replaceStar l) = (globToks l).map convTok := by
  induction l with
  | nil => rfl
  | cons c t ih =>
    have hc := h c (List.mem_cons_self c t)
    have ht := fun x hx => h x (List.mem_cons_of_mem c hx)
    rw [replaceStar_cons]
    by_cases hstar : c = '*'
    · rw [if_pos hstar, List.cons_append, List.cons_append,
        List.nil_append, scanRegex_dotstar, ih ht]
      simp [globToks, hstar, convTok]
    · have hdot : c ≠ '.' := by
        intro hd
        rw [hd] at hc
        exact absurd hc (by decide)
      rw [if_neg hstar, List.cons_append, List.nil_append,
        scanRegex_lit hdot, ih ht]
      simp [globToks, hstar, convTok]

theorem rmatch_conv (g : List GTok) :
    ∀ xs : List Char, rmatch (g.map convTok) xs = gmatch g xs := by
  induction g with
  | nil => intro xs; rfl
  | cons tok ts ih =>
    intro xs
    cases tok with
    | lit c =>
      cases xs with
      | nil => rfl
      | cons x xs' =>
        simp only [List.map_cons, convTok, rmatch, gmatch, ih xs']
    | star =>
      simp only [List.map_cons, convTok, rmatch, gmatch]
      congr 1
      funext ys
      exact ih ys

theorem gmatch_iff (g : List GTok) :
    ∀ xs : List Char, gmatch g xs = true ↔
      ∃ u v, xs = u ++ v ∧ gmatchFull g u = true := by
  induction g with
  | nil =>
    intro xs
    constructor
    · intro _
      exact ⟨[], xs, rfl, rfl⟩
    · intro _
      rfl
  | cons tok ts ih =>
    intro xs
    cases tok with
    | lit c =>
      cases xs with
      | nil =>
        constructor
        · intro h; cases h
        · rintro ⟨u, v, huv, hf⟩
          cases u with
          | nil => cases hf
          | cons y u' => cases huv
      | cons x xs' =>
        simp only [gmatch, Bool.and_eq_true, decide_eq_true_eq]
        constructor
        · rintro ⟨rfl, hm⟩
          obtain ⟨u', v', rfl, hf⟩ := (ih xs').1 hm
          refine ⟨x :: u', v', rfl, ?_⟩
          simp [gmatchFull, hf]
        · rintro ⟨u, v, huv, hf⟩
          cases u with
          | nil => cases hf
          | cons y u' =>
            rw [List.cons_append] at huv
            injection huv with h1 h2
            subst h1
            simp only [gmatchFull, Bool.and_eq_true, decide_eq_true_eq] at hf
            exact ⟨hf.1, (ih xs').2 ⟨u', v, h2, hf.2⟩⟩
    | star =>
      simp only [gmatch, List.any_eq_true, List.mem_tails]
      constructor
      · rintro ⟨ys, hsuf, hm⟩
        obtain ⟨a, rfl⟩ := hsuf
        obtain ⟨u', v', rfl, hf⟩ := (ih ys).1 hm
        refine ⟨a ++ u', v', by rw [List.append_assoc], ?_⟩
        simp only [gmatchFull, List.any_eq_true, List.mem_tails]
        exact ⟨u', ⟨a, rfl⟩, hf⟩
      · rintro ⟨u, v, rfl, hf⟩
        simp only [gmatchFull, List.any_eq_true, List.mem_tails] at hf
        obtain ⟨w, hw, hfw⟩ := hf
        obtain ⟨b, rfl⟩ := hw
        refine ⟨w ++ v, ⟨b, by rw [List.append_assoc]⟩, ?_⟩
        exact (ih (w ++ v)).2 ⟨w, v, rfl, hfw⟩

theorem split_iff_take (P : List Char → Bool) (xs : List Char) :
    (∃ u v, xs = u ++ v ∧ P u = true) ↔
      (∃ k, k < xs.length + 1 ∧ P (xs.take k) = true) := by
  constructor
  · rintro ⟨u, v, rfl, hp⟩
    refine ⟨u.length, ?_, ?_⟩
    · have := List.length_append u v
      omega
    · rw [List.take_left]
      exact hp
  · rintro ⟨k, _, hp⟩
    exact ⟨xs.take k, xs.drop k, (List.take_append_drop k xs).symm, hp⟩

/-- C9 counterexample: under the claimed semantics every non-`*` pattern
character is literal, but the code feeds the pattern to `re.match`, where
`.` matches any character: the URL `"axcd"` matches the pattern `"a.c*"`
in the code although no prefix of `"axcd"` matches it literally. -/
theorem c9_matches_pattern_counterexample :
    matches_pattern "axcd" "a.c*" = true ∧
    claimMatches "axcd" "a.c*" = false := by
  constructor <;> decide

/-- C9 amended: a pattern without `'*'` matches only on exact string
equality; a pattern containing `'*'` is matched as a regex anchored at the
start but not at the end, so every non-`'*'` character is interpreted per
regex syntax — in particular `'.'` matches any single character.  For
patterns containing no regex metacharacter besides `'*'`, the claimed
literal semantics holds: the URL matches exactly when some prefix of it
matches the pattern with each `'*'` expanded to any character sequence. -/
theorem c9_matches_pattern_glob (repo_url pattern : String) :
    (pattern.toList.contains '*' = false →
      (matches_pattern repo_url pattern = true ↔ repo_url = pattern)) ∧
    (pattern.toList.contains '*' = true →
      (∀ c ∈ pattern.toList, isRegexMeta c = false) →
      matches_pattern repo_url pattern = claimMatches repo_url pattern) := by
  constructor
  · intro hno
    unfold matches_pattern
    rw [hno]
    simp only [Bool.false_eq_true, if_false, beq_iff_eq]
  · intro hyes hmeta
    unfold matches_pattern claimMatches
    rw [hyes]
    simp only [eq_self_iff_true, if_true]
    rw [scan_replace pattern.toList hmeta, rmatch_conv]
    rw [Bool.eq_iff_iff, gmatch_iff,
      split_iff_take (fun u => gmatchFull (globToks pattern.toList) u)]
    simp only [List.any_eq_true, List.mem_range]

/-- Witness for C9 (amended): both parts applied at concrete inputs — an
exact-match lookup without `'*'`, and a metacharacter-free wildcard
pattern matching by prefix. -/
theorem c9_matches_pattern_glob_witness :
    (matches_pattern "github.com/org/x" "github.com/org/x" = true ↔
      ("github.com/org/x" : String) = "github.com/org/x") ∧
    matches_pattern "gh/org/x" "gh/org/*" =
      claimMatches "gh/org/x" "gh/org/*" :=
  ⟨(c9_matches_pattern_glob "github.com/org/x" "github.com/org/x").1
      (by decide),
    (c9_matches_pattern_glob "gh/org/x" "gh/org/*").2
      (by decide) (by decide)⟩

/-! ### C1, C8: similarity retriever -/

theorem sNorm_pos (p : ℚ × ℚ) : 0 < (sNorm p).2 := by
  unfold sNorm
  split
  · norm_num
  · next h => exact lt_of_not_le h

theorem sLE_eq (p q : ℚ × ℚ) :
    sLE p q =
      (if 0 ≤ (sNorm p).1 then
        (if 0 ≤ (sNorm q).1 then
          decide ((sNorm p).1 ^ 2 * (sNorm q).2 ≤ (sNorm q).1 ^ 2 * (sNorm p).2)
        else false)
      else
        (if 0 ≤ (sNorm q).1 then true
        else
          decide ((sNorm q).1 ^ 2 * (sNorm p).2 ≤
            (sNorm p).1 ^ 2 * (sNorm q).2))) := rfl

theorem sLE_total (p q : ℚ × ℚ) : sLE p q = true ∨ sLE q p = true := by
  rw [sLE_eq p q, sLE_eq q p]
  by_cases h1 : 0 ≤ (sNorm p).1 <;> by_cases h2 : 0 ≤ (sNorm q).1 <;>
    simp [h1, h2]
  · exact le_total _ _
  · exact le_total _ _

theorem sLE_trans (p q r : ℚ × ℚ) (hpq : sLE p q = true)
    (hqr : sLE q r = true) : sLE p r = true := by
  have ha := sNorm_pos p
  have hb := sNorm_pos q
  have hc := sNorm_pos r
  rw [sLE_eq p q] at hpq
  rw [sLE_eq q r] at hqr
  rw [sLE_eq p r]
  by_cases h1 : 0 ≤ (sNorm p).1 <;> by_cases h2 : 0 ≤ (sNorm q).1 <;>
    by_cases h3 : 0 ≤ (sNorm r).1 <;>
    simp_all
  · nlinarith [mul_le_mul_of_nonneg_right hpq (le_of_lt hc),
      mul_le_mul_of_nonneg_right hqr (le_of_lt ha), hb]
  · rw [if_neg (not_le.2 h1)]
    refine Or.inr ?_
    nlinarith [mul_le_mul_of_nonneg_right hqr (le_of_lt ha),
      mul_le_mul_of_nonneg_right hpq (le_of_lt hc), hb]

theorem idxLE_total (sims : List (ℚ × ℚ)) :
    ∀ i j, idxLE sims i j ∨ idxLE sims j i := by
  intro i j
  unfold idxLE
  by_cases hij : sLE (scoreAt sims i) (scoreAt sims j) = true <;>
    by_cases hji : sLE (scoreAt sims j) (scoreAt sims i) = true
  · rcases Nat.le_total i j with h | h
    · exact Or.inl ⟨hij, fun _ => h⟩
    · exact Or.inr ⟨hji, fun _ => h⟩
  · exact Or.inl ⟨hij, fun hc => absurd hc hji⟩
  · exact Or.inr ⟨hji, fun hc => absurd hc hij⟩
  · rcases sLE_total (scoreAt sims i) (scoreAt sims j) with h | h
    · exact absurd h hij
    · exact absurd h hji

theorem idxLE_transitive (sims : List (ℚ × ℚ)) :
    ∀ i j k, idxLE sims i j → idxLE sims j k → idxLE sims i k := by
  rintro i j k ⟨hij, tij⟩ ⟨hjk, tjk⟩
  refine ⟨sLE_trans _ _ _ hij hjk, fun hki => ?_⟩
  have hji := sLE_trans _ _ _ hjk hki
  have hkj := sLE_trans _ _ _ hki hij
  exact le_trans (tij hji) (tjk hkj)

instance (sims : List (ℚ × ℚ)) : IsTotal ℕ (idxLE sims) :=
  ⟨idxLE_total sims⟩

instance (sims : List (ℚ × ℚ)) : IsTrans ℕ (idxLE sims) :=
  ⟨idxLE_transitive sims⟩

theorem argsortSim_perm (q : List ℚ) (kb : List Entry) :
    (argsortSim q kb).Perm (List.range kb.length) :=
  List.perm_insertionSort _ _

theorem argsortSim_sorted (q : List ℚ) (kb : List Entry) :
    (argsortSim q kb).Pairwise (idxLE (sim_scores q kb)) :=
  List.sorted_insertionSort _ _

theorem argsortSim_length (q : List ℚ) (kb : List Entry) :
    (argsortSim q kb).length = kb.length :=
  (argsortSim_perm q kb).length_eq.trans (List.length_range _)

theorem argsortSim_nodup (q : List ℚ) (kb : List Entry) :
    (argsortSim q kb).Nodup :=
  (argsortSim_perm q kb).nodup_iff.2 (List.nodup_range _)

theorem lastSlice_sublist (l : List α) (k : ℕ) : (lastSlice l k).Sublist l := by
  unfold lastSlice
  split
  · exact List.Sublist.refl l
  · exact List.drop_sublist _ _

theorem top_indices_lt (q : List ℚ) (kb : List Entry) (k : ℕ) :
    ∀ i ∈ top_indices q kb k, i < kb.length := by
  intro i hi
  rw [top_indices, List.mem_reverse] at hi
  have h1 := (lastSlice_sublist _ _).mem hi
  have h2 := (argsortSim_perm q kb).mem_iff.1 h1
  exact List.mem_range.1 h2

theorem top_indices_nodup (q : List ℚ) (kb : List Entry) (k : ℕ) :
    (top_indices q kb k).Nodup := by
  rw [top_indices, List.nodup_reverse]
  exact (argsortSim_nodup q kb).sublist (lastSlice_sublist _ _)

theorem top_indices_pairwise (q : List ℚ) (kb : List Entry) (k : ℕ) :
    (top_indices q kb k).Pairwise
      (fun i j => idxLE (sim_scores q kb) j i ∧ j ≠ i) := by
  have h1 : (lastSlice (argsortSim q kb) k).Pairwise (idxLE (sim_scores q kb)) :=
    List.Pairwise.sublist (lastSlice_sublist _ _) (argsortSim_sorted q kb)
  have h2 : (top_indices q kb k).Pairwise
      (fun i j => idxLE (sim_scores q kb) j i) := by
    rw [top_indices, List.pairwise_reverse]
    exact h1
  have h3 : (top_indices q kb k).Pairwise (fun i j : ℕ => i ≠ j) :=
    top_indices_nodup q kb k
  refine (h2.and h3).imp ?_
  rintro i j ⟨hle, hne⟩
  exact ⟨hle, Ne.symm hne⟩

theorem argsortSim_split (q : List ℚ) (kb : List Entry) (k : ℕ)
    (hk : 1 ≤ k) :
    argsortSim q kb =
      (argsortSim q kb).take ((argsortSim q kb).length - k) ++
        lastSlice (argsortSim q kb) k := by
  unfold lastSlice
  rw [if_neg (by omega : ¬ k = 0)]
  exact (List.take_append_drop _ _).symm

theorem top_indices_top (q : List ℚ) (kb : List Entry) (k : ℕ) (hk : 1 ≤ k) :
    ∀ i ∈ top_indices q kb k, ∀ j, j < kb.length → j ∉ top_indices q kb k →
      sLE (scoreAt (sim_scores q kb) j) (scoreAt (sim_scores q kb) i) = true := by
  intro i hi j hj hjn
  rw [top_indices, List.mem_reverse] at hi
  rw [top_indices, List.mem_reverse] at hjn
  have hjA : j ∈ argsortSim q kb :=
    (argsortSim_perm q kb).mem_iff.2 (List.mem_range.2 hj)
  have hsplit := argsortSim_split q kb k hk
  rw [hsplit] at hjA
  rcases List.mem_append.1 hjA with hjt | hjd
  · have hp := argsortSim_sorted q kb
    rw [hsplit] at hp
    exact ((List.pairwise_append.1 hp).2.2 j hjt i hi).1
  · exact absurd hjd hjn

theorem top_indices_length (q : List ℚ) (kb : List Entry) (k : ℕ)
    (hk : 1 ≤ k) : (top_indices q kb k).length = min k kb.length := by
  rw [top_indices, List.length_reverse]
  unfold lastSlice
  rw [if_neg (by omega : ¬ k = 0), List.length_drop, argsortSim_length]
  omega

theorem scoreAt_sim_scores (q : List ℚ) (kb : List Entry) (j : ℕ)
    (hj : j < kb.length) :
    scoreAt (sim_scores q kb) j = mkScore q ((kb.getD j default).embedding) := by
  unfold scoreAt sim_scores
  rw [List.getD_eq_getElem?_getD, List.getElem?_map,
    List.getElem?_eq_getElem hj, List.getD_eq_getElem?_getD,
    List.getElem?_eq_getElem hj]
  rfl

/-- C1 counterexample: on two knowledge-base entries with identical
embeddings and `k = 2`, `argsort[-k:][::-1]` returns the later entry
first — ties are broken by *reverse* insertion order, not by insertion
order as claimed (which would give `["A", "B"]`). -/
theorem c1_find_similar_repos_counterexample :
    (find_similar_repos [1, 0] kbTie 2).map (fun e => e.repo_url) =
      ["B", "A"] ∧
    (["B", "A"] : List String) ≠ ["A", "B"] := by
  constructor <;> decide

/-- C1 amended: for `k ≥ 1` the retriever returns `min k |K|` entries —
exactly the `k` entries of `K` with highest cosine similarity to the
query, annotated with their (exactly represented) similarity score, in
descending score order, with ties broken by reverse insertion order
(later knowledge-base entries first).  Formally: the output is the
annotated image of `top_indices`, which is duplicate-free, in-range,
strictly descending in (score, position) — so equal scores appear with
descending position — and every selected index's score dominates every
non-selected index's score. -/
theorem c1_find_similar_repos_topk (q : List ℚ) (kb : List Entry) (k : ℕ)
    (hk : 1 ≤ k) :
    (find_similar_repos q kb k).length = min k kb.length ∧
    find_similar_repos q kb k = (top_indices q kb k).map (annotate q kb) ∧
    (∀ e ∈ find_similar_repos q kb k,
      e.similarity_score = some (mkScore q e.embedding)) ∧
    (find_similar_repos q kb k).Pairwise
      (fun a b => sLE (mkScore q b.embedding) (mkScore q a.embedding) = true) ∧
    (top_indices q kb k).Nodup ∧
    (∀ i ∈ top_indices q kb k, i < kb.length) ∧
    (top_indices q kb k).Pairwise
      (fun i j => idxLE (sim_scores q kb) j i ∧ j ≠ i) ∧
    (∀ i ∈ top_indices q kb k, ∀ j, j < kb.length →
      j ∉ top_indices q kb k →
      sLE (scoreAt (sim_scores q kb) j) (scoreAt (sim_scores q kb) i) = true) := by
  refine ⟨?_, rfl, ?_, ?_, top_indices_nodup q kb k, top_indices_lt q kb k,
    top_indices_pairwise q kb k, top_indices_top q kb k hk⟩
  · rw [find_similar_repos, List.length_map]
    exact top_indices_length q kb k hk
  · intro e he
    obtain ⟨i, _, rfl⟩ := List.mem_map.1 he
    rfl
  · rw [find_similar_repos]
    rw [List.pairwise_map]
    have hmem := (List.Pairwise.and_mem.1 (top_indices_pairwise q kb k))
    refine hmem.imp ?_
    rintro i j ⟨hi, hj, hji, _⟩
    have hi' := top_indices_lt q kb k i hi
    have hj' := top_indices_lt q kb k j hj
    have := hji.1
    rw [scoreAt_sim_scores q kb j hj', scoreAt_sim_scores q kb i hi'] at this
    exact this

/-- Witness for C1 (amended): the theorem applied at a concrete
three-entry knowledge base with `k = 2`, together with the evaluated
output (the two highest-similarity entries in descending order). -/
theorem c1_find_similar_repos_topk_witness :
    (find_similar_repos [1, 0] kbW 2).length = min 2 kbW.length ∧
    (find_similar_repos [1, 0] kbW 2).map (fun e => e.repo_url) =
      ["A", "C"] :=
  ⟨(c1_find_similar_repos_topk [1, 0] kbW 2 (by norm_num)).1, by decide⟩

/-- C8: retrieval never mutates the knowledge base — the stored list after
the call is exactly the list before it (in particular no stored entry
gains a `similarity_score`), and every returned entry is a copy of some
stored entry, identical to it except for the added score field. -/
theorem c8_find_similar_repos_no_mutation (q : List ℚ) (kb : List Entry)
    (k : ℕ) :
    (find_similar_repos_call q kb k).1 = kb ∧
    ∀ e ∈ (find_similar_repos_call q kb k).2, ∃ i, i < kb.length ∧
      e.repo_url = (kb.getD i default).repo_url ∧
      e.embedding = (kb.getD i default).embedding ∧
      e.similarity_score = some (mkScore q (kb.getD i default).embedding) := by
  refine ⟨rfl, ?_⟩
  intro e he
  obtain ⟨i, hi, rfl⟩ := List.mem_map.1 he
  exact ⟨i, top_indices_lt q kb k i hi, rfl, rfl, rfl⟩

/-- Witness for C8: on a concrete tied knowledge base the stored list is
unchanged and the returned copies carry the score annotation. -/
theorem c8_find_similar_repos_no_mutation_witness :
    (find_similar_repos_call [1, 0] kbTie 2).1 = kbTie ∧
    (find_similar_repos_call [1, 0] kbTie 2).2 =
      [⟨"B", [1, 0], some (1, 1)⟩, ⟨"A", [1, 0], some (1, 1)⟩] :=
  ⟨(c8_find_similar_repos_no_mutation [1, 0] kbTie 2).1, by decide⟩

end ADocS
